import Mathlib

/-!
A shallow embedding of the warbler parser-combinator library (`src/index.js`)
and proofs about it.

JS strings are modelled as lists of characters; the mutable environment object
is modelled by explicit state passing.  The environment additionally carries an
instrumentation counter `nadv` counting invocations of `advance`; it is written
only by `advance`, so "advance was invoked n times" is "`nadv` grew by n".
-/

namespace Warbler

/-- A JS string, modelled as its sequence of characters. -/
abbrev Str := List Char

/-- A dynamically-typed JS value as it flows through parse results:
`undefined`, a string, an array, or a plain object (ordered fields). -/
inductive Value where
  | undefined
  | str (s : Str)
  | list (vs : List Value)
  | obj (fields : List (Str × Value))

/-- The `ParseResult` record from `src/index.js`. -/
structure ParseResult where
  success : Bool
  value : Value
  rest : Str

/-- The position-tracking environment (`environment` in `src/index.js`):
`line` and `col` counters, plus the instrumentation counter `nadv`
(number of `advance` invocations, not present in the JS object). -/
structure Env where
  line : Nat
  col : Nat
  nadv : Nat
deriving Repr, DecidableEq

/-- The default environment: `{ line: 1, col: 1 }`. -/
def defaultEnv : Env := ⟨1, 1, 0⟩

/-- JS `input.split('\n')`: split a string at every newline character. -/
def splitNl : Str → List Str
  | [] => [[]]
  | c :: cs =>
    let r := splitNl cs
    if c = '\n' then [] :: r
    else
      match r with
      | [] => [[c]]
      | h :: t => (c :: h) :: t

/-- JS `input.lastIndexOf('\n')`, as an `Option Nat` (JS returns `-1` for none). -/
def lastIndexOfNl : Str → Option Nat
  | [] => none
  | c :: cs =>
    match lastIndexOfNl cs with
    | some j => some (j + 1)
    | none => if c = '\n' then some 0 else none

/-- `environment().advance(input)` from `src/index.js`:
`line += input.split('\n').length - 1`; if the input contains a newline,
`col = input.length - input.lastIndexOf('\n')`; otherwise `col` is untouched.
Also bumps the instrumentation counter `nadv`. -/
def advance (e : Env) (input : Str) : Env :=
  { line := e.line + ((splitNl input).length - 1),
    col :=
      match lastIndexOfNl input with
      | some i => input.length - i
      | none => e.col,
    nadv := e.nadv + 1 }

/-- A parser: `(input, env) -> ParseResult`, with the mutation of the shared
environment object made explicit as a returned environment. -/
abbrev Parser := Str → Env → ParseResult × Env

/-- `stringParser` from `src/index.js`: succeeds iff the input starts with the
literal string; calls `env.advance(string)` exactly on success. -/
def stringParser (s : Str) : Parser := fun input e =>
  let success := s.isPrefixOf input
  if success then
    ({ success := true, value := .str s, rest := input.drop s.length }, advance e s)
  else
    ({ success := false, value := .undefined, rest := input }, e)

/-- `regexParser` from `src/index.js`.  A JS regex is modelled by its `exec`
function, returning the index and text of the first match (or none):
success iff there is a match and its index is 0; calls `env.advance` on the
matched text exactly on success; the value on failure is the empty string. -/
def regexParser (exec : Str → Option (Nat × Str)) : Parser := fun input e =>
  match exec input with
  | some (idx, m) =>
    if idx = 0 then
      ({ success := true, value := .str m, rest := input.drop m.length }, advance e m)
    else
      ({ success := false, value := .str [], rest := input }, e)
  | none => ({ success := false, value := .str [], rest := input }, e)

/-- The exported `any` from `src/index.js`: a bare function of the input only.
Succeeds iff input is nonempty; value is the first character; rest is
`input.slice(1)`.  It never touches any environment. -/
def anyP (input : Str) : ParseResult :=
  match input with
  | [] => { success := false, value := .undefined, rest := [] }
  | c :: cs => { success := true, value := .str [c], rest := cs }

/-- `any` as it behaves when invoked through combinators with an environment:
the extra argument is ignored and the environment is left untouched. -/
def anyParser : Parser := fun input e => (anyP input, e)

/-- `or` from `src/index.js`, over the list of its (normalized) arguments:
try each parser in turn on the same input (the shared environment threads
through failed attempts); return the first success unmodified; if none
succeed, return `{success: false, value: undefined, rest: input}`. -/
def orP : List Parser → Parser
  | [], input, e => ({ success := false, value := .undefined, rest := input }, e)
  | p :: ps, input, e =>
    let (r, e1) := p input e
    if r.success then (r, e1) else orP ps input e1

/-- The loop of `seq` from `src/index.js`: `input` is the original input the
sequence started from, `rest` the current remainder, `acc` the values
accumulated so far.  On a sub-failure the whole sequence fails with the
failing sub-result's value and `rest` reset to the original input. -/
def seqAux : List Parser → Str → Str → List Value → Env → ParseResult × Env
  | [], _, rest, acc, e => ({ success := true, value := .list acc, rest := rest }, e)
  | p :: ps, input, rest, acc, e =>
    let (r, e1) := p rest e
    if r.success then seqAux ps input r.rest (acc ++ [r.value]) e1
    else ({ success := false, value := r.value, rest := input }, e1)

/-- `seq` from `src/index.js`. -/
def seqP (ps : List Parser) : Parser := fun input e => seqAux ps input input [] e

/-- The do-while loop of `many` from `src/index.js`, with explicit fuel (the
JS loop runs while the parser succeeds; with a parser that consumes on every
success, `input.length + 1` iterations always suffice, see `manyAux_fuel`).
Note `ret.rest = result.rest` is executed before the loop condition, so the
final (failed) attempt's `rest` is what `many` returns as its `rest`. -/
def manyAux (p : Parser) : Nat → Str → List Value → Env → ParseResult × Env
  | 0, rest, acc, e => ({ success := true, value := .list acc, rest := rest }, e)
  | fuel + 1, rest, acc, e =>
    let (r, e1) := p rest e
    if r.success then manyAux p fuel r.rest (acc ++ [r.value]) e1
    else ({ success := true, value := .list acc, rest := r.rest }, e1)

/-- `many` from `src/index.js`. -/
def manyP (p : Parser) : Parser := fun input e => manyAux p (input.length + 1) input [] e

/-- `opt` from `src/index.js`: on success pass the result through, on failure
succeed with value `undefined` and the original input as rest. -/
def optP (p : Parser) : Parser := fun input e =>
  let (r, e1) := p input e
  if r.success then (r, e1)
  else ({ success := true, value := .undefined, rest := input }, e1)

/-- `map` from `src/index.js`: on success replace the value by `f value`;
on failure pass the result through unchanged. -/
def mapP (p : Parser) (f : Value → Value) : Parser := fun input e =>
  let (r, e1) := p input e
  if r.success then ({ r with value := f r.value }, e1) else (r, e1)

/-- JS array indexing `x[n]` as used by `nth`: element of an array value,
`undefined` when out of range or not an array. -/
def jsIndex (v : Value) (n : Nat) : Value :=
  match v with
  | .list vs => vs.getD n .undefined
  | _ => .undefined

/-- The destructuring map `([a, b]) => [a, ...b]` used by `list` in
`src/index.js` (its argument is always the two-element value of
`seq(parser, many(...))`, whose second element is an array). -/
def consFlatten (v : Value) : Value :=
  match v with
  | .list [a, .list b] => .list (a :: b)
  | _ => .undefined

/-- The final map `x => x || []` of `list` in `src/index.js`:
`undefined` is falsy, every array (even the empty one) is truthy. -/
def undefToEmptyList (v : Value) : Value :=
  match v with
  | .undefined => .list []
  | x => x

/-- The repeated element of `list` in `src/index.js`:
`seq(interstitial, parser).map(x => x[1])`. -/
def listItemP (p sep : Parser) : Parser :=
  mapP (seqP [sep, p]) (fun x => jsIndex x 1)

/-- `list` from `src/index.js`:
`opt(seq(parser, many(seq(interstitial, parser).map(x => x[1]))).map(([a,b]) => [a,...b])).map(x => x || [])`. -/
def listP (p sep : Parser) : Parser :=
  mapP
    (optP
      (mapP
        (seqP [p, manyP (listItemP p sep)])
        consFlatten))
    undefToEmptyList

/-- The tail of a separator-join: `sep ++ t1 ++ sep ++ t2 ++ ...`
(input-data constructor for the round-trip claim about `list`). -/
def sepTail (s : Str) : List Str → Str
  | [] => []
  | t :: ts => s ++ (t ++ sepTail s ts)

/-- JS `parts.join(sep)`: the strings interleaved with the separator. -/
def joinSep (s : Str) : List Str → Str
  | [] => []
  | t :: ts => t ++ sepTail s ts

/-- The do-while loop of `lazyMany` from `src/index.js`, with explicit fuel.
Each iteration applies `parser` to the current remainder and then probes
`stopParser` on the result's rest (the shared environment threads through
both).  On `parser` success the value is pushed; if the stop probe also
succeeded its value is pushed too and the loop returns early — note
`ret.rest = result.rest` runs only after this early return, so the returned
`rest` is the remainder from before this iteration.  When `parser` fails the
loop exits and `stopParser(input, env)` on the original input is returned. -/
def lazyManyAux (p stop : Parser) (input : Str) :
    Nat → Str → List Value → Env → ParseResult × Env
  | 0, _, _, e => stop input e
  | fuel + 1, rest, acc, e =>
    let (r, e1) := p rest e
    let (sr, e2) := stop r.rest e1
    if r.success then
      if sr.success then
        ({ success := true, value := .list (acc ++ [r.value, sr.value]), rest := rest }, e2)
      else lazyManyAux p stop input fuel r.rest (acc ++ [r.value]) e2
    else stop input e2

/-- `lazyMany` from `src/index.js`. -/
def lazyManyP (p stop : Parser) : Parser := fun input e =>
  lazyManyAux p stop input (input.length + 1) input [] e

/-- Decimal rendering of a number, for the diagnostic message of `expect`. -/
def natToStr (n : Nat) : Str := (Nat.repr n).toList

/-- `lodash.trunc(s, n)`: `s` unchanged if within length `n`, otherwise the
first `n - 3` characters followed by the three-dot omission mark. -/
def truncJs (s : Str) (n : Nat) : Str :=
  if s.length ≤ n then s
  else s.take (n - 3) ++ "...".toList

/-- The diagnostic string built by `expect` in `src/index.js`:
`` `[${env.line}:${env.col}]: Expected ${expectation}, got "${trunc(input, 10)}"` ``. -/
def expectMsg (e : Env) (expectation : Str) (input : Str) : Str :=
  "[".toList ++ natToStr e.line ++ ":".toList ++ natToStr e.col
    ++ "]: Expected ".toList ++ expectation
    ++ ", got \"".toList ++ truncJs input 10 ++ "\"".toList

/-- `expect` from `src/index.js`: on success pass the result through; on
failure return a failure whose value is the positioned diagnostic string
(reading `line`/`col` from the environment as it stands after the inner
parser ran) and whose rest is the original input. -/
def expectP (p : Parser) (expectation : Str) : Parser := fun input e =>
  let (r, e1) := p input e
  if r.success then (r, e1)
  else
    ({ success := false,
       value := .str (expectMsg e1 expectation input),
       rest := input }, e1)

/-- JS property assignment `ret[key] = value` on a plain object: overwrite the
existing field, else append a new one. -/
def jsSetKey (fields : List (Str × Value)) (k : Str) (v : Value) : List (Str × Value) :=
  if fields.any (fun kv => kv.1 = k) then
    fields.map (fun kv => if kv.1 = k then (k, v) else kv)
  else fields ++ [(k, v)]

/-- The run of `mapSeq`'s inner `seq` from `src/index.js`, with the writes the
`to(key)` mappings make into the accumulator object made explicit: each
sequence element is a parser together with an optional capture key (the shape
every `seqFn` in the repository produces).  A tagged element writes its value
under its key when (and only when) it succeeds, since `map` applies its
function only on success.  The ordinary `seq` failure behaviour (value of the
failing sub-result, rest reset to the original input) is kept. -/
def mapSeqAux : List (Parser × Option Str) → Str → Str → List Value →
    List (Str × Value) → Env → (ParseResult × List (Str × Value)) × Env
  | [], _, rest, acc, fields, e =>
    (({ success := true, value := .list acc, rest := rest }, fields), e)
  | (p, tag) :: ps, input, rest, acc, fields, e =>
    let (r, e1) := p rest e
    if r.success then
      let fields1 :=
        match tag with
        | some k => jsSetKey fields k r.value
        | none => fields
      mapSeqAux ps input r.rest (acc ++ [r.value]) fields1 e1
    else (({ success := false, value := r.value, rest := input }, fields), e1)

/-- The accumulator object `ret` of `mapSeq` as it stands when the inner
sequence finishes (successfully or not). -/
def capturedFields (items : List (Parser × Option Str)) (input : Str) (e : Env) :
    List (Str × Value) :=
  (mapSeqAux items input input [] [] e).1.2

/-- `mapSeq` from `src/index.js`: run the sequence, then unconditionally
overwrite `result.value` with the accumulator object (`result.value = ret`),
whether the sequence succeeded or failed. -/
def mapSeqP (items : List (Parser × Option Str)) : Parser := fun input e =>
  let ((r, fields), e1) := mapSeqAux items input input [] [] e
  ({ r with value := .obj fields }, e1)

/-!  The terminal-wrapping mechanism (`terminals` / `toParser`), needed for the
claim about the exported `any`.  The environment at this level additionally
carries the `terminals` field.  The only wrapper shape the library constructs
is `W.skip(ignore)` (`seq(ignore, parser, ignore).nth(1)`), so the wrapper
function is defunctionalized to its `ignore` parser. -/

/-- A `terminals` wrapper value: `W.skip(ignore)`. -/
inductive TermWrap where
  | skipWrap (ignore : Parser)

/-- An environment with the optional `terminals` field. -/
structure EnvT where
  pos : Env
  terminals : Option TermWrap

/-- Application of a `terminals` wrapper to a terminal parser:
`W.skip(ignore)(term) = seq(ignore, term, ignore).nth(1)`.  It runs with the
child environment whose `terminals` field was cleared, so everything inside is
at the plain `Parser` level. -/
def applyWrap : TermWrap → Parser → Parser
  | .skipWrap ignore, term => mapP (seqP [ignore, term, ignore]) (fun v => jsIndex v 1)

/-- `toParser` applied to a literal string, at the `terminals`-aware level:
when the active environment has a `terminals` wrapper, the wrapped terminal is
invoked with a child environment whose `terminals` is cleared
(`environment(env, { terminals: undefined })`); since the child shadows the
parent prototypically, `advance` writes made during the wrapped run land on
the child and are invisible to the parent environment afterwards. -/
def toParserStr (s : Str) : Str → EnvT → ParseResult × EnvT := fun input et =>
  match et.terminals with
  | some w => ((applyWrap w (stringParser s) input et.pos).1, et)
  | none =>
    let (r, p1) := stringParser s input et.pos
    (r, { et with pos := p1 })

/-- `any` at the `terminals`-aware level: the export is the bare function, so
the environment — including any installed `terminals` wrapper — is never
consulted and never changed. -/
def anyExportT : Str → EnvT → ParseResult × EnvT := fun input et => (anyP input, et)

/-- A value of the default-export object of `src/index.js`: either a parser
that went through `toParser`/`addMaps` (and therefore carries the mapping
chain `map`/`nth`/`const`/`set`/`skip`/`skipLast`/`take`/`takeLast`), or a
bare function exported as-is (which carries none of them). -/
inductive ExportedParser where
  | normalized (p : Str → EnvT → ParseResult × EnvT)
  | bare (f : Str → ParseResult)

/-- The `any` entry of the default export in `src/index.js` (line 545): the
function defined at line 502 is placed in the export object directly, without
passing through `toParser`/`addMaps`. -/
def exportAny : ExportedParser := .bare anyP

/-- The `exec` function of the `/\s*/` regex behind `W.whitespace`: always
matches at index 0, greedily taking the leading run of whitespace. -/
def whitespaceExec (s : Str) : Option (Nat × Str) :=
  some (0, s.takeWhile (fun c => c = ' ' ∨ c = '\t' ∨ c = '\n' ∨ c = '\r'))

/-- Specification-side definition (follows the words of the spec for `seq`):
the first failing sub-result when the parsers are applied left to right, each
against the remaining input of the previous one; `none` when all succeed. -/
def specSeqFirstFailure : List Parser → Str → Env → Option ParseResult
  | [], _, _ => none
  | p :: ps, s, e =>
    let (r, e1) := p s e
    if r.success then specSeqFirstFailure ps r.rest e1 else some r

/-- Specification-side definition (follows the words of the spec for `many`):
the number of consecutive successful applications of `p`, each starting from
the previous one's rest, with explicit fuel. -/
def specConsecutiveSuccesses (p : Parser) : Nat → Str → Env → Nat
  | 0, _, _ => 0
  | fuel + 1, s, e =>
    let (r, e1) := p s e
    if r.success then specConsecutiveSuccesses p fuel r.rest e1 + 1 else 0

/-- A user-supplied parser (witness data): fails while illegally consuming a
character, to observe that `or` resets `rest` to its own input on total
failure rather than using the last alternative's `rest`. -/
def shiftFail : Parser := fun input e =>
  ({ success := false, value := .undefined, rest := input.drop 1 }, e)

/-- A user-supplied parser (witness data): fails on every input, without
consuming and without touching the environment — a stop parser that never
matches. -/
def failP : Parser := fun input e =>
  ({ success := false, value := .undefined, rest := input }, e)

/-! ## Helper lemmas -/

theorem splitNl_ne_nil (s : Str) : splitNl s ≠ [] := by
  cases s with
  | nil => simp [splitNl]
  | cons c cs =>
    simp only [splitNl]
    by_cases hc : c = '\n'
    · simp [hc]
    · simp only [hc, if_false]
      cases hsplit : splitNl cs with
      | nil => simp
      | cons h t => simp

theorem splitNl_length (s : Str) : (splitNl s).length = s.count '\n' + 1 := by
  induction s with
  | nil => simp [splitNl]
  | cons c cs ih =>
    by_cases hc : c = '\n'
    · simp [splitNl, hc, ih, List.count_cons]
    · cases hsplit : splitNl cs with
      | nil => exact absurd hsplit (splitNl_ne_nil cs)
      | cons h t =>
        rw [hsplit] at ih
        simp [splitNl, hc, hsplit, List.count_cons]
        simpa using ih

theorem lastIndexOfNl_lt (s : Str) (i : Nat) (h : lastIndexOfNl s = some i) :
    i < s.length := by
  induction s generalizing i with
  | nil => simp [lastIndexOfNl] at h
  | cons c cs ih =>
    simp only [lastIndexOfNl] at h
    cases hcs : lastIndexOfNl cs with
    | some j =>
      rw [hcs] at h
      injection h with h
      subst h
      exact Nat.succ_lt_succ (ih j hcs)
    | none =>
      rw [hcs] at h
      by_cases hc : c = '\n'
      · simp [hc] at h
        subst h
        simp
      · simp [hc] at h

/-! ## C1: `environment.advance` -/

/-- C1 (counterexample): the claim predicts that consuming the
newline-free text `"ab"` from column 1 moves the column to `1 + 2 = 3`,
but `advance` leaves the column untouched when the consumed text contains
no newline. -/
theorem advance_claim_cex :
    (advance ⟨1, 1, 0⟩ ['a', 'b']).col = 1 ∧
      (advance ⟨1, 1, 0⟩ ['a', 'b']).col ≠ 1 + 2 := by
  constructor <;> decide

/-- C1 (amended): for every call `environment.advance(consumedText)`,
`line` increases by the number of newline characters in `consumedText`;
if `consumedText` contains a newline, `col` is set to
`(length of text after the last newline) + 1`; otherwise `col` is left
unchanged (it does not increase by the consumed length). -/
theorem advance_amended (e : Env) (s : Str) :
    (advance e s).line = e.line + s.count '\n'
      ∧ (∀ i, lastIndexOfNl s = some i →
          (advance e s).col = (s.drop (i + 1)).length + 1)
      ∧ (lastIndexOfNl s = none → (advance e s).col = e.col) := by
  refine ⟨?_, ?_, ?_⟩
  · simp [advance, splitNl_length]
  · intro i hi
    have hlt := lastIndexOfNl_lt s i hi
    simp only [advance, hi, List.length_drop]
    omega
  · intro hnone
    simp [advance, hnone]

/-- C1 (witness for the amended theorem): consuming `"a\nbc"` from
line 3, column 5 moves the position to line 4, column 3. -/
theorem advance_amended_witness :
    (advance ⟨3, 5, 0⟩ ['a', '\n', 'b', 'c']).line = 3 + 1 ∧
      (advance ⟨3, 5, 0⟩ ['a', '\n', 'b', 'c']).col =
        ((['a', '\n', 'b', 'c'] : Str).drop 2).length + 1 := by
  refine ⟨?_, ?_⟩
  · have h := (advance_amended ⟨3, 5, 0⟩ ['a', '\n', 'b', 'c']).1
    simpa using h
  · exact (advance_amended ⟨3, 5, 0⟩ ['a', '\n', 'b', 'c']).2.1 1 (by decide)

theorem stringParser_consumes (s : Str) (hs : s ≠ []) (input : Str) (e : Env)
    (h : (stringParser s input e).1.success = true) :
    (stringParser s input e).1.rest.length < input.length := by
  by_cases hb : s.isPrefixOf input
  · have hpre := List.isPrefixOf_iff_prefix.mp hb
    have hle := hpre.length_le
    have hpos : 0 < s.length := List.length_pos.mpr hs
    simp [stringParser, hb, List.length_drop]
    omega
  · simp [stringParser, hb] at h

theorem stringParser_failRest (s input : Str) (e : Env)
    (h : (stringParser s input e).1.success = false) :
    (stringParser s input e).1.rest = input := by
  by_cases hb : s.isPrefixOf input
  · simp [stringParser, hb] at h
  · simp [stringParser, hb]

theorem stringParser_envInd (s input : Str) (e1 e2 : Env) :
    (stringParser s input e1).1.success = (stringParser s input e2).1.success := by
  by_cases hb : s.isPrefixOf input <;> simp [stringParser, hb]

theorem stringParser_resultInd (s input : Str) (e1 e2 : Env) :
    (stringParser s input e1).1 = (stringParser s input e2).1 := by
  by_cases hb : s.isPrefixOf input <;> simp [stringParser, hb]

/-! ## C7: the literal-string matcher -/

/-- C7: for every literal string `s` and input `i`, `parse(s)(i)` succeeds
iff `i` starts with `s`; on success the value is `s` itself and the rest is
`i` with the first `s.length` characters removed; on failure the rest is `i`
unchanged. -/
theorem stringParser_spec (s i : Str) (e : Env) :
    ((stringParser s i e).1.success = true ↔ s <+: i)
      ∧ (s <+: i →
          (stringParser s i e).1.value = .str s
            ∧ (stringParser s i e).1.rest = i.drop s.length)
      ∧ (¬ s <+: i → (stringParser s i e).1.rest = i) := by
  by_cases h : s <+: i
  · have hb : s.isPrefixOf i = true := by
      simpa [ List.isPrefixOf_iff_prefix] using h
    exact ⟨by simp [stringParser, hb, h],
      fun _ => ⟨by simp [stringParser, hb], by simp [stringParser, hb]⟩,
      fun hc => absurd h hc⟩
  · have hb : s.isPrefixOf i = false := by
      cases hb2 : s.isPrefixOf i with
      | false => rfl
      | true => exact absurd ( List.isPrefixOf_iff_prefix.mp hb2) h
    exact ⟨by simp [stringParser, hb, h],
      fun hc => absurd hc h,
      fun _ => by simp [stringParser, hb]⟩

/-- C7 (witness): `parse("ab")` on `"abc"` succeeds with value `"ab"` and
rest `"c"`; on `"ax"` it fails and leaves the input unchanged. -/
theorem stringParser_spec_witness :
    (stringParser ['a', 'b'] ['a', 'b', 'c'] defaultEnv).1.value = .str ['a', 'b']
      ∧ (stringParser ['a', 'b'] ['a', 'b', 'c'] defaultEnv).1.rest = ['c']
      ∧ (stringParser ['a', 'b'] ['a', 'x'] defaultEnv).1.rest = ['a', 'x'] := by
  have h1 := (stringParser_spec ['a', 'b'] ['a', 'b', 'c'] defaultEnv).2.1 (by decide)
  have h2 := (stringParser_spec ['a', 'b'] ['a', 'x'] defaultEnv).2.2 (by decide)
  exact ⟨h1.1, h1.2.trans rfl, h2⟩

/-! ## C6: `or` -/

/-- C6: `or(a,b)(i)` equals `a(i)` when `a` succeeds, else equals `b(i)`
(invoked on the original input, with the environment as `a` left it); when
both fail, the result has `success = false`, `value = undefined` and `rest`
equal to the original input — not the last alternative's rest. -/
theorem or_spec (a b : Parser) (i : Str) (e : Env) :
    ((a i e).1.success = true → orP [a, b] i e = a i e)
      ∧ ((a i e).1.success = false → (b i (a i e).2).1.success = true →
          orP [a, b] i e = b i (a i e).2)
      ∧ ((a i e).1.success = false → (b i (a i e).2).1.success = false →
          orP [a, b] i e
            = ({ success := false, value := .undefined, rest := i }, (b i (a i e).2).2)) := by
  rcases hae : a i e with ⟨ra, ea⟩
  rcases hbe : b i ea with ⟨rb, eb⟩
  refine ⟨?_, ?_, ?_⟩
  · intro h1
    simp only at h1
    simp [orP, hae, h1]
  · intro h1 h2
    simp only at h1 h2
    simp [orP, hae, hbe, h1, h2]
  · intro h1 h2
    simp only at h1 h2
    simp [orP, hae, hbe, h1, h2]

/-- C6 (witness): with both alternatives failing — the second one a
user-supplied parser that illegally consumes on failure — `or` still returns
`rest` equal to its own original input. -/
theorem or_spec_witness :
    orP [stringParser ['a'], shiftFail] ['x', 'y'] defaultEnv
      = ({ success := false, value := .undefined, rest := ['x', 'y'] }, defaultEnv) := by
  have h := (or_spec (stringParser ['a']) shiftFail ['x', 'y'] defaultEnv).2.2
    (by decide) (by decide)
  exact h.trans rfl

/-! ## C3: `advance` invocations by the primitive matchers -/

/-- C3 (counterexample): the any-character matcher succeeds on `"x"` yet
never invokes `advance` — the instrumentation counter stays 0 instead of
becoming 1 as the claim demands. -/
theorem any_advance_cex :
    (anyParser ['x'] defaultEnv).1.success = true
      ∧ (anyParser ['x'] defaultEnv).2.nadv = 0
      ∧ (anyParser ['x'] defaultEnv).2.nadv ≠ defaultEnv.nadv + 1 := by
  refine ⟨rfl, rfl, by decide⟩

/-- C3 (amended): the literal-string and pattern matchers invoke `advance`
exactly once when the match succeeds and never when it fails (on failure the
environment is left entirely unchanged); the any-character matcher never
invokes `advance` and never touches the environment at all. -/
theorem primitive_advance_amended :
    (∀ s input e,
        (stringParser s input e).2.nadv
            = e.nadv + (if (stringParser s input e).1.success then 1 else 0)
          ∧ ((stringParser s input e).1.success = false →
              (stringParser s input e).2 = e))
      ∧ (∀ exec input e,
          (regexParser exec input e).2.nadv
              = e.nadv + (if (regexParser exec input e).1.success then 1 else 0)
            ∧ ((regexParser exec input e).1.success = false →
                (regexParser exec input e).2 = e))
      ∧ (∀ input e, (anyParser input e).2 = e) := by
  refine ⟨?_, ?_, fun input e => rfl⟩
  · intro s input e
    by_cases h : s.isPrefixOf input <;> simp [stringParser, h, advance]
  · intro exec input e
    rcases hx : exec input with _ | ⟨idx, m⟩
    · simp [regexParser, hx]
    · by_cases hidx : idx = 0 <;> simp [regexParser, hx, hidx, advance]

/-- C3 (witness for the amended theorem): concrete cases — a successful
string match advances once, a failed one not at all. -/
theorem primitive_advance_amended_witness :
    (stringParser ['a'] ['a', 'b'] defaultEnv).2.nadv = defaultEnv.nadv + 1
      ∧ (stringParser ['a'] ['x'] defaultEnv).2 = defaultEnv := by
  constructor
  · have h := (primitive_advance_amended.1 ['a'] ['a', 'b'] defaultEnv).1
    exact h.trans (by decide)
  · exact (primitive_advance_amended.1 ['a'] ['x'] defaultEnv).2 (by decide)

/-! ## C4: `seq` failure behaviour -/

/-- C4: whenever some sub-parser of `seq(p1..pn)` fails, the whole result has
`success = false`, its `rest` is the sequence's original input (all partial
consumption discarded), and its `value` is the failing sub-result's value. -/
theorem seqAux_firstFailure (ps : List Parser) :
    ∀ input rest acc e,
      (specSeqFirstFailure ps rest e = none →
          (seqAux ps input rest acc e).1.success = true)
        ∧ (∀ r, specSeqFirstFailure ps rest e = some r →
            (seqAux ps input rest acc e).1
              = { success := false, value := r.value, rest := input }) := by
  induction ps with
  | nil =>
    intro input rest acc e
    constructor
    · intro _
      simp [seqAux]
    · intro r hr
      simp [specSeqFirstFailure] at hr
  | cons p ps ih =>
    intro input rest acc e
    rcases hp : p rest e with ⟨r0, e1⟩
    by_cases hs : r0.success
    · constructor
      · intro hn
        rw [specSeqFirstFailure, hp] at hn
        simp only [hs, if_true] at hn
        rw [seqAux, hp]
        simp only [hs, if_true]
        exact (ih input r0.rest (acc ++ [r0.value]) e1).1 hn
      · intro r hr
        rw [specSeqFirstFailure, hp] at hr
        simp only [hs, if_true] at hr
        rw [seqAux, hp]
        simp only [hs, if_true]
        exact (ih input r0.rest (acc ++ [r0.value]) e1).2 r hr
    · have hs' : r0.success = false := by
        cases h : r0.success
        · rfl
        · exact absurd h hs
      constructor
      · intro hn
        rw [specSeqFirstFailure, hp] at hn
        simp [hs'] at hn
      · intro r hr
        rw [specSeqFirstFailure, hp] at hr
        simp [hs'] at hr
        subst hr
        rw [seqAux, hp]
        simp [hs']

/-- C4 (main): refinement of the spec's description of `seq` failure —
`seq` fails exactly when some sub-parser fails, and then rest resets to the
original input while the failing sub-result's value is preserved. -/
theorem seq_fail_spec (ps : List Parser) (input : Str) (e : Env) :
    (specSeqFirstFailure ps input e = none → (seqP ps input e).1.success = true)
      ∧ (∀ r, specSeqFirstFailure ps input e = some r →
          (seqP ps input e).1
            = { success := false, value := r.value, rest := input }) := by
  exact seqAux_firstFailure ps input input [] e

/-- C4 (witness): `seq("a", expect("b", "bee"))` on `"ax"` fails, resets
`rest` to `"ax"`, and keeps the diagnostic string that `expect` placed in the
failing sub-result's value (so the value is not `undefined`). -/
theorem seq_fail_spec_witness :
    (seqP [stringParser ['a'], expectP (stringParser ['b']) "bee".toList]
        ['a', 'x'] defaultEnv).1
      = { success := false,
          value := .str "[1:1]: Expected bee, got \"x\"".toList,
          rest := ['a', 'x'] } := by
  have h := (seq_fail_spec
      [stringParser ['a'], expectP (stringParser ['b']) "bee".toList]
      ['a', 'x'] defaultEnv).2
    { success := false,
      value := .str "[1:1]: Expected bee, got \"x\"".toList,
      rest := ['x'] }
    (by rfl)
  exact h

/-! ## C2: `lazyMany` -/

/-- C2 (counterexample): with `p` the literal `"a"` and `stop` the literal
`"b"`, on input `"b"` the claim demands the stop check to fire before `p`
ever consumes, yielding the output sequence `["b"]`; the code instead falls
through to `stop` applied alone and yields the bare string value `"b"`. -/
theorem lazyMany_claim_cex :
    (lazyManyP (stringParser ['a']) (stringParser ['b']) ['b'] defaultEnv).1.value
        = .str ['b']
      ∧ Value.str ['b'] ≠ Value.list [Value.str ['b']] := by
  exact ⟨rfl, fun h => Value.noConfusion h⟩

/-- C2 (amended): at every iteration of the `lazyMany(p, stop)` loop —
whatever remainder, accumulated output, environment and remaining fuel it has
reached — the loop applies `p` and then probes `stop` against `p`'s rest: if
`p` succeeded and the probe matches, it stops, appending first `p`'s value and
then the stop-match's value to the output (returning the remainder from
before that `p` application as rest); if `p` succeeded and the probe fails it
continues from `p`'s rest; whenever `p` fails it returns `stop` applied alone
to the original input.  Consequently (second part), whenever `stop` never
matches, the whole call — after however many successful applications of `p`,
and in particular when `p` never succeeds — equals `stop` applied alone to
the original input with the then-current environment. -/
theorem lazyMany_amended (p stop : Parser) (input : Str) :
    (∀ fuel rest acc e,
        ((p rest e).1.success = true →
            (stop (p rest e).1.rest (p rest e).2).1.success = true →
              lazyManyAux p stop input (fuel + 1) rest acc e
                = ({ success := true,
                     value := .list (acc ++ [(p rest e).1.value,
                         (stop (p rest e).1.rest (p rest e).2).1.value]),
                     rest := rest },
                   (stop (p rest e).1.rest (p rest e).2).2))
          ∧ ((p rest e).1.success = true →
              (stop (p rest e).1.rest (p rest e).2).1.success = false →
                lazyManyAux p stop input (fuel + 1) rest acc e
                  = lazyManyAux p stop input fuel (p rest e).1.rest
                      (acc ++ [(p rest e).1.value])
                      (stop (p rest e).1.rest (p rest e).2).2)
          ∧ ((p rest e).1.success = false →
              lazyManyAux p stop input (fuel + 1) rest acc e
                = stop input (stop (p rest e).1.rest (p rest e).2).2))
      ∧ (∀ e, (∀ s e1, (stop s e1).1.success = false) →
          ∃ e2, lazyManyP p stop input e = stop input e2) := by
  constructor
  · intro fuel rest acc e
    rcases hp : p rest e with ⟨r, e1⟩
    rcases hs : stop r.rest e1 with ⟨sr, e2⟩
    refine ⟨?_, ?_, ?_⟩
    · intro h1 h2
      simp only at h1 h2
      simp [lazyManyAux, hp, hs, h1, h2]
    · intro h1 h2
      simp only at h1 h2
      simp [lazyManyAux, hp, hs, h1, h2]
    · intro h1
      simp only at h1
      simp [lazyManyAux, hp, hs, h1]
  · intro e hstop
    suffices h : ∀ fuel rest acc e0, ∃ e2,
        lazyManyAux p stop input fuel rest acc e0 = stop input e2 by
      exact h (input.length + 1) input [] e
    intro fuel
    induction fuel with
    | zero => intro rest acc e0; exact ⟨e0, rfl⟩
    | succ f ih =>
      intro rest acc e0
      rcases hp : p rest e0 with ⟨r, e1⟩
      rcases hs : stop r.rest e1 with ⟨sr, e2⟩
      by_cases hr : r.success
      · have hsf : sr.success = false := by
          have := hstop r.rest e1
          rw [hs] at this
          exact this
        obtain ⟨e3, he3⟩ := ih r.rest (acc ++ [r.value]) e2
        refine ⟨e3, ?_⟩
        have hstep : lazyManyAux p stop input (f + 1) rest acc e0
            = lazyManyAux p stop input f r.rest (acc ++ [r.value]) e2 := by
          simp [lazyManyAux, hp, hs, hr, hsf]
        rw [hstep]
        exact he3
      · have hr2 : r.success = false := by
          cases h2 : r.success
          · rfl
          · exact absurd h2 hr
        exact ⟨e2, by simp [lazyManyAux, hp, hs, hr2]⟩

/-- C2 (witness for the amended theorem): first, the step characterization at
a non-initial loop state (nonempty accumulator, remainder different from the
original input, leftover fuel 4): with `p = "a"`, `stop = "b"` and remainder
`"ab"`, `p` matches, the probe on its rest matches, and both values are
appended to the accumulated output.  Second, the whole-run degradation on a
multi-iteration run: `p = "a"` succeeds once on `"ab"` and then
fails, and with a never-matching stop parser the call equals that stop parser
applied alone to the original input. -/
theorem lazyMany_amended_witness :
    lazyManyAux (stringParser ['a']) (stringParser ['b']) ['z'] (4 + 1)
        ['a', 'b'] [Value.str ['x']] defaultEnv
      = ({ success := true,
           value := .list [.str ['x'], .str ['a'], .str ['b']],
           rest := ['a', 'b'] },
         ⟨1, 1, 2⟩)
      ∧ (lazyManyP (stringParser ['a']) failP ['a', 'b'] defaultEnv).1
          = { success := false, value := .undefined, rest := ['a', 'b'] } := by
  constructor
  · have h := ((lazyMany_amended (stringParser ['a']) (stringParser ['b'])
        ['z']).1 4 ['a', 'b'] [Value.str ['x']] defaultEnv).1 (by rfl) (by rfl)
    exact h.trans rfl
  · obtain ⟨e2, he⟩ := (lazyMany_amended (stringParser ['a']) failP
        ['a', 'b']).2 defaultEnv (fun s e1 => rfl)
    rw [he]
    rfl

/-! ## C8: `many` -/

theorem manyAux_success (p : Parser) (fuel : Nat) :
    ∀ rest acc e, (manyAux p fuel rest acc e).1.success = true := by
  induction fuel with
  | zero => intro rest acc e; simp [manyAux]
  | succ f ih =>
    intro rest acc e
    rcases hp : p rest e with ⟨r, e1⟩
    by_cases hr : r.success
    · rw [manyAux, hp]
      simp only [hr, if_true]
      exact ih r.rest (acc ++ [r.value]) e1
    · rw [manyAux, hp]
      simp [hr]

theorem manyAux_fuel (p : Parser)
    (hcons : ∀ s e1, (p s e1).1.success = true → (p s e1).1.rest.length < s.length)
    (fuel1 : Nat) :
    ∀ fuel2 rest acc e, rest.length < fuel1 → rest.length < fuel2 →
      manyAux p fuel1 rest acc e = manyAux p fuel2 rest acc e := by
  induction fuel1 with
  | zero =>
    intro fuel2 rest acc e h1 _
    exact absurd h1 (Nat.not_lt_zero _)
  | succ f1 ih =>
    intro fuel2 rest acc e h1 h2
    cases fuel2 with
    | zero => exact absurd h2 (Nat.not_lt_zero _)
    | succ f2 =>
      rcases hp : p rest e with ⟨r, e1⟩
      by_cases hr : r.success
      · have hlen : r.rest.length < rest.length := by
          have := hcons rest e (by rw [hp]; exact hr)
          rwa [hp] at this
        rw [manyAux, hp]
        simp only [hr, if_true]
        rw [manyAux, hp]
        simp only [hr, if_true]
        exact ih f2 r.rest (acc ++ [r.value]) e1 (by omega) (by omega)
      · rw [manyAux, hp]
        simp only [hr, if_false]
        rw [manyAux, hp]
        simp [hr]

theorem manyAux_value (p : Parser) (fuel : Nat) :
    ∀ rest acc e, ∃ vs,
      (manyAux p fuel rest acc e).1.value = .list (acc ++ vs)
        ∧ vs.length = specConsecutiveSuccesses p fuel rest e := by
  induction fuel with
  | zero =>
    intro rest acc e
    exact ⟨[], by simp [manyAux], by simp [specConsecutiveSuccesses]⟩
  | succ f ih =>
    intro rest acc e
    rcases hp : p rest e with ⟨r, e1⟩
    by_cases hr : r.success
    · obtain ⟨vs, hv, hl⟩ := ih r.rest (acc ++ [r.value]) e1
      refine ⟨r.value :: vs, ?_, ?_⟩
      · rw [manyAux, hp]
        simp only [hr, if_true]
        rw [hv]
        simp
      · rw [specConsecutiveSuccesses, hp]
        simp only [hr, if_true]
        simp [hl]
    · refine ⟨[], ?_, ?_⟩
      · rw [manyAux, hp]
        simp [hr]
      · rw [specConsecutiveSuccesses, hp]
        simp [hr]

theorem manyAux_final_fail (p : Parser)
    (hcons : ∀ s e1, (p s e1).1.success = true → (p s e1).1.rest.length < s.length)
    (hfail : ∀ s e1, (p s e1).1.success = false → (p s e1).1.rest = s)
    (hind : ∀ s e1 e2, (p s e1).1.success = (p s e2).1.success)
    (fuel : Nat) :
    ∀ rest acc e, rest.length < fuel →
      (p (manyAux p fuel rest acc e).1.rest (manyAux p fuel rest acc e).2).1.success
        = false := by
  induction fuel with
  | zero =>
    intro rest acc e h1
    exact absurd h1 (Nat.not_lt_zero _)
  | succ f ih =>
    intro rest acc e h1
    rcases hp : p rest e with ⟨r, e1⟩
    by_cases hr : r.success
    · have hlen : r.rest.length < rest.length := by
        have := hcons rest e (by rw [hp]; exact hr)
        rwa [hp] at this
      rw [manyAux, hp]
      simp only [hr, if_true]
      exact ih r.rest (acc ++ [r.value]) e1 (by omega)
    · have hr' : r.success = false := by
        cases h : r.success
        · rfl
        · exact absurd h hr
      have hrr : r.rest = rest := by
        have := hfail rest e (by rw [hp]; exact hr')
        rwa [hp] at this
      rw [manyAux, hp]
      simp only [hr', Bool.false_eq_true, if_false]
      simp only [hrr]
      have := hind rest e1 e
      rw [this, hp]
      exact hr'

/-- C8: for every parser `p` obeying the library's parser contract (a failed
attempt does not consume, and success of an attempt does not depend on the
mutable position environment) and consuming at least one character on every
success: `many(p)(i)` terminates — the fueled loop is independent of the fuel
once it exceeds the input length —, always succeeds, its value is a sequence
whose length is the maximal number of consecutive successful applications of
`p`, and applying `many(p)` again to the returned rest yields an empty
sequence. -/
theorem many_spec (p : Parser) (input : Str) (e : Env)
    (hcons : ∀ s e1, (p s e1).1.success = true → (p s e1).1.rest.length < s.length)
    (hfail : ∀ s e1, (p s e1).1.success = false → (p s e1).1.rest = s)
    (hind : ∀ s e1 e2, (p s e1).1.success = (p s e2).1.success) :
    (∀ fuel, input.length < fuel → manyAux p fuel input [] e = manyP p input e)
      ∧ (manyP p input e).1.success = true
      ∧ (∃ vs, (manyP p input e).1.value = .list vs
          ∧ vs.length = specConsecutiveSuccesses p (input.length + 1) input e)
      ∧ (manyP p (manyP p input e).1.rest (manyP p input e).2).1.value
          = .list [] := by
  refine ⟨?_, ?_, ?_, ?_⟩
  · intro fuel hf
    exact manyAux_fuel p hcons fuel (input.length + 1) input [] e hf (by omega)
  · exact manyAux_success p (input.length + 1) input [] e
  · obtain ⟨vs, hv, hl⟩ := manyAux_value p (input.length + 1) input [] e
    exact ⟨vs, by simpa using hv, hl⟩
  · have h4 := manyAux_final_fail p hcons hfail hind (input.length + 1) input [] e
      (by omega)
    rcases hq : p (manyP p input e).1.rest (manyP p input e).2 with ⟨r2, e2⟩
    rw [show (manyP p input e).1.rest = (manyAux p (input.length + 1) input [] e).1.rest from rfl,
        show (manyP p input e).2 = (manyAux p (input.length + 1) input [] e).2 from rfl] at hq
    rw [hq] at h4
    simp only at h4
    show (manyAux p ((manyP p input e).1.rest.length + 1)
        (manyP p input e).1.rest [] (manyP p input e).2).1.value = .list []
    rw [manyAux]
    rw [show p (manyP p input e).1.rest (manyP p input e).2
        = p (manyAux p (input.length + 1) input [] e).1.rest
            (manyAux p (input.length + 1) input [] e).2 from rfl]
    rw [hq]
    simp [h4]

/-- C8 (witness): `many("a")` on `"aab"` succeeds with the two matches and
stops; the hypotheses are discharged for the literal-string parser `"a"`. -/
theorem many_spec_witness :
    (manyP (stringParser ['a']) ['a', 'a', 'b'] defaultEnv).1.success = true
      ∧ (manyP (stringParser ['a']) ['a', 'a', 'b'] defaultEnv).1.value
          = .list [.str ['a'], .str ['a']] := by
  have h := many_spec (stringParser ['a']) ['a', 'a', 'b'] defaultEnv
    (fun s e1 => stringParser_consumes ['a'] (by simp) s e1)
    (fun s e1 => stringParser_failRest ['a'] s e1)
    (fun s e1 e2 => stringParser_envInd ['a'] s e1 e2)
  exact ⟨h.2.1, rfl⟩

/-! ## C9: `list` round trip -/

theorem seqAux_fail_rest (ps : List Parser) :
    ∀ input rest acc e, (seqAux ps input rest acc e).1.success = false →
      (seqAux ps input rest acc e).1.rest = input := by
  induction ps with
  | nil =>
    intro input rest acc e h
    simp [seqAux] at h
  | cons p ps ih =>
    intro input rest acc e h
    rcases hp : p rest e with ⟨r, e1⟩
    by_cases hr : r.success
    · rw [seqAux, hp] at h ⊢
      simp only [hr, if_true] at h ⊢
      exact ih input r.rest (acc ++ [r.value]) e1 h
    · rw [seqAux, hp]
      simp [hr]

theorem listItem_manyAux (p sep : Parser) (sepStr : Str)
    (hsepNe : sepStr ≠ [])
    (hsep : ∀ suffix e1, (sep (sepStr ++ suffix) e1).1.success = true
        ∧ (sep (sepStr ++ suffix) e1).1.rest = suffix)
    (hstop : ∀ e1, (seqP [sep, p] [] e1).1.success = false)
    (ts : List (Str × Value)) :
    ∀ (fuel : Nat) (acc : List Value) (e : Env),
      (∀ tv ∈ ts, ∀ suffix e1, (p (tv.1 ++ suffix) e1).1 = ⟨true, tv.2, suffix⟩) →
      (sepTail sepStr (ts.map fun tv => tv.1)).length < fuel →
      (manyAux (listItemP p sep) fuel (sepTail sepStr (ts.map fun tv => tv.1)) acc e).1
        = ⟨true, .list (acc ++ ts.map fun tv => tv.2), []⟩ := by
  induction ts with
  | nil =>
    intro fuel acc e _ hfuel
    cases fuel with
    | zero => exact absurd hfuel (Nat.not_lt_zero _)
    | succ f =>
      rcases hq : seqP [sep, p] [] e with ⟨r0, e0⟩
      have h0 : r0.success = false := by
        have := hstop e
        rw [hq] at this
        exact this
      have h0r : r0.rest = [] := by
        have hq2 : seqAux [sep, p] [] [] [] e = (r0, e0) := hq
        have := seqAux_fail_rest [sep, p] [] [] [] e (by rw [hq2]; exact h0)
        rw [hq2] at this
        exact this
      have hitem : listItemP p sep [] e = (r0, e0) := by
        simp only [listItemP, mapP]
        rw [hq]
        simp [h0]
      simp only [List.map_nil, sepTail]
      rw [manyAux, hitem]
      simp [h0, h0r]
  | cons tv rts ih =>
    intro fuel acc e hp hfuel
    obtain ⟨t, v⟩ := tv
    cases fuel with
    | zero => exact absurd hfuel (Nat.not_lt_zero _)
    | succ f =>
      simp only [List.map_cons, sepTail] at hfuel ⊢
      have hslen : 0 < sepStr.length := List.length_pos.mpr hsepNe
      simp only [List.length_append] at hfuel
      rcases hs1 : sep (sepStr ++ (t ++ sepTail sepStr (rts.map fun tv => tv.1))) e
        with ⟨rs, es⟩
      have hss : rs.success = true := by
        have := (hsep (t ++ sepTail sepStr (rts.map fun tv => tv.1)) e).1
        rw [hs1] at this
        exact this
      have hsr : rs.rest = t ++ sepTail sepStr (rts.map fun tv => tv.1) := by
        have := (hsep (t ++ sepTail sepStr (rts.map fun tv => tv.1)) e).2
        rw [hs1] at this
        exact this
      rcases hp1 : p (t ++ sepTail sepStr (rts.map fun tv => tv.1)) es with ⟨rp, ep⟩
      have hrp : rp = ⟨true, v, sepTail sepStr (rts.map fun tv => tv.1)⟩ := by
        have := hp (t, v) (List.mem_cons_self _ _)
          (sepTail sepStr (rts.map fun tv => tv.1)) es
        rw [hp1] at this
        exact this
      subst hrp
      have hseq : seqAux [sep, p]
          (sepStr ++ (t ++ sepTail sepStr (rts.map fun tv => tv.1)))
          (sepStr ++ (t ++ sepTail sepStr (rts.map fun tv => tv.1))) [] e
          = (⟨true, .list [rs.value, v], sepTail sepStr (rts.map fun tv => tv.1)⟩, ep) := by
        rw [seqAux, hs1]
        simp only [hss, if_true]
        rw [hsr, seqAux, hp1]
        simp [seqAux]
      have hitem : listItemP p sep
          (sepStr ++ (t ++ sepTail sepStr (rts.map fun tv => tv.1))) e
          = (⟨true, v, sepTail sepStr (rts.map fun tv => tv.1)⟩, ep) := by
        simp only [listItemP, mapP, seqP]
        rw [hseq]
        simp [jsIndex]
      rw [manyAux, hitem]
      simp only [if_true]
      have htail := ih f (acc ++ [v]) ep
        (fun tv hm suffix e1 => hp tv (List.mem_cons_of_mem _ hm) suffix e1)
        (by omega)
      rw [htail]
      simp

/-- C9 (round trip): applying `list(p, sep)` to the string formed by joining
`n` matches of `p` with the separator yields success with exactly those `n`
values in order and empty rest.  The hypotheses say that `p` matches each of
the `n` pieces exactly (whatever follows and whatever the environment),
that `sep` consumes exactly the separator text, that the element-plus-
separator pair does not match the empty remainder left at the end (so the
repetition stops), that `p` alone does not match the empty string in the
degenerate `n = 0` case, and that the separator is nonempty (ruling out the
joins on which the JS loop would not terminate). -/
theorem list_roundtrip (p sep : Parser) (sepStr : Str) (ts : List (Str × Value)) (e : Env)
    (hsepNe : sepStr ≠ [])
    (hp : ∀ tv ∈ ts, ∀ suffix e1, (p (tv.1 ++ suffix) e1).1 = ⟨true, tv.2, suffix⟩)
    (hsep : ∀ suffix e1, (sep (sepStr ++ suffix) e1).1.success = true
        ∧ (sep (sepStr ++ suffix) e1).1.rest = suffix)
    (hstop : ∀ e1, (seqP [sep, p] [] e1).1.success = false)
    (hpEmpty : ts = [] → ∀ e1, (p [] e1).1.success = false) :
    (listP p sep (joinSep sepStr (ts.map fun tv => tv.1)) e).1
      = ⟨true, .list (ts.map fun tv => tv.2), []⟩ := by
  cases ts with
  | nil =>
    rcases hq : p [] e with ⟨r0, e0⟩
    have h0 : r0.success = false := by
      have := hpEmpty rfl e
      rw [hq] at this
      exact this
    have hseq : seqAux [p, manyP (listItemP p sep)] [] [] [] e
        = (⟨false, r0.value, []⟩, e0) := by
      rw [seqAux, hq]
      simp [h0]
    have hin : mapP (seqP [p, manyP (listItemP p sep)]) consFlatten [] e
        = (⟨false, r0.value, []⟩, e0) := by
      simp only [mapP, seqP]
      rw [hseq]
      simp [h0]
    have hopt : optP (mapP (seqP [p, manyP (listItemP p sep)]) consFlatten) [] e
        = (⟨true, .undefined, []⟩, e0) := by
      simp only [optP]
      rw [hin]
      simp [h0]
    show (mapP (optP (mapP (seqP [p, manyP (listItemP p sep)]) consFlatten))
        undefToEmptyList [] e).1 = _
    simp only [mapP]
    rw [hopt]
    simp [undefToEmptyList]
  | cons tv rts =>
    obtain ⟨t, v⟩ := tv
    simp only [List.map_cons, joinSep]
    rcases hp1 : p (t ++ sepTail sepStr (rts.map fun tv => tv.1)) e with ⟨rp, ep⟩
    have hrp : rp = ⟨true, v, sepTail sepStr (rts.map fun tv => tv.1)⟩ := by
      have := hp (t, v) (List.mem_cons_self _ _)
        (sepTail sepStr (rts.map fun tv => tv.1)) e
      rw [hp1] at this
      exact this
    subst hrp
    rcases hm2 : manyP (listItemP p sep) (sepTail sepStr (rts.map fun tv => tv.1)) ep
      with ⟨rm, em⟩
    have hrm : rm = ⟨true, .list (rts.map fun tv => tv.2), []⟩ := by
      have hmany := listItem_manyAux p sep sepStr hsepNe hsep hstop rts
        ((sepTail sepStr (rts.map fun tv => tv.1)).length + 1) [] ep
        (fun tv hm suffix e1 => hp tv (List.mem_cons_of_mem _ hm) suffix e1)
        (by omega)
      have hm3 : (manyP (listItemP p sep) (sepTail sepStr (rts.map fun tv => tv.1)) ep).1
          = ⟨true, .list ([] ++ rts.map fun tv => tv.2), []⟩ := hmany
      rw [hm2] at hm3
      simpa using hm3
    subst hrm
    have hseq : seqAux [p, manyP (listItemP p sep)]
        (t ++ sepTail sepStr (rts.map fun tv => tv.1))
        (t ++ sepTail sepStr (rts.map fun tv => tv.1)) [] e
        = (⟨true, .list [v, .list (rts.map fun tv => tv.2)], []⟩, em) := by
      rw [seqAux, hp1]
      simp only [if_true]
      rw [seqAux, hm2]
      simp [seqAux]
    have hin : mapP (seqP [p, manyP (listItemP p sep)]) consFlatten
        (t ++ sepTail sepStr (rts.map fun tv => tv.1)) e
        = (⟨true, .list (v :: rts.map fun tv => tv.2), []⟩, em) := by
      simp only [mapP, seqP]
      rw [hseq]
      simp [consFlatten]
    have hopt : optP (mapP (seqP [p, manyP (listItemP p sep)]) consFlatten)
        (t ++ sepTail sepStr (rts.map fun tv => tv.1)) e
        = (⟨true, .list (v :: rts.map fun tv => tv.2), []⟩, em) := by
      simp only [optP]
      rw [hin]
      simp
    show (mapP (optP (mapP (seqP [p, manyP (listItemP p sep)]) consFlatten))
        undefToEmptyList (t ++ sepTail sepStr (rts.map fun tv => tv.1)) e).1 = _
    simp only [mapP]
    rw [hopt]
    simp [undefToEmptyList]

/-- C9 (witness): `list("a", ",")` on the join `"a,a"` of two `"a"` matches
yields exactly those two values and consumes everything; the hypotheses are
discharged for the literal parsers `"a"` and `","`. -/
theorem list_roundtrip_witness :
    (listP (stringParser ['a']) (stringParser [','])
        (joinSep [','] [['a'], ['a']]) defaultEnv).1
      = ⟨true, .list [.str ['a'], .str ['a']], []⟩ := by
  have h := list_roundtrip (stringParser ['a']) (stringParser [',']) [',']
    [(['a'], .str ['a']), (['a'], .str ['a'])] defaultEnv
    (by simp)
    (by
      intro tv hm suffix e1
      have ht : tv.1 = ['a'] ∧ tv.2 = Value.str ['a'] := by
        simp only [List.mem_cons, List.not_mem_nil, or_false] at hm
        rcases hm with hm | hm <;> simp [hm]
      rw [ht.1, ht.2]
      simp [stringParser, List.isPrefixOf])
    (by
      intro suffix e1
      constructor <;> simp [stringParser, List.isPrefixOf])
    (by
      intro e1
      rcases hc : stringParser [','] [] e1 with ⟨rc, ec⟩
      have hf : rc.success = false := by
        have h2 : (stringParser [','] [] e1).1.success = false := by
          simp [stringParser, List.isPrefixOf]
        rw [hc] at h2
        exact h2
      show (seqAux [stringParser [','], stringParser ['a']] [] [] [] e1).1.success = false
      rw [seqAux, hc]
      simp [hf])
    (by intro h1; exact absurd h1 (by simp))
  simpa using h

/-! ## C5: `mapSeq` overwrites the value on failure -/

/-- C5: the parser built by `mapSeq` always overwrites the result's value
with the (possibly partially filled) accumulator object — also when the
underlying sequence failed — so in particular a diagnostic string placed in
the failing sub-result's value by `expect` never survives through `mapSeq`. -/
theorem mapSeq_overwrites (items : List (Parser × Option Str)) (input : Str) (e : Env) :
    (mapSeqP items input e).1.value = .obj (capturedFields items input e)
      ∧ ((mapSeqP items input e).1.success = false →
          ∀ s, (mapSeqP items input e).1.value ≠ .str s) := by
  rcases h : mapSeqAux items input input [] [] e with ⟨⟨r, fields⟩, e1⟩
  have hv : (mapSeqP items input e).1.value = .obj (capturedFields items input e) := by
    simp [mapSeqP, capturedFields, h]
  refine ⟨hv, fun _ s hs => ?_⟩
  rw [hv] at hs
  exact Value.noConfusion hs

/-- C5 (witness): `mapSeq` over the single element `expect("b", "bee")` on
input `"x"`: the sequence fails with a diagnostic string as its value, but
`mapSeq` returns the empty accumulator object instead — the diagnostic is
gone. -/
theorem mapSeq_overwrites_witness :
    (mapSeqP [(expectP (stringParser ['b']) "bee".toList, some "k".toList)]
        ['x'] defaultEnv).1.success = false
      ∧ (mapSeqP [(expectP (stringParser ['b']) "bee".toList, some "k".toList)]
          ['x'] defaultEnv).1.value = .obj []
      ∧ ∀ s, (mapSeqP [(expectP (stringParser ['b']) "bee".toList, some "k".toList)]
          ['x'] defaultEnv).1.value ≠ .str s := by
  refine ⟨rfl, ?_, ?_⟩
  · have h := (mapSeq_overwrites
        [(expectP (stringParser ['b']) "bee".toList, some "k".toList)]
        ['x'] defaultEnv).1
    exact h.trans rfl
  · exact (mapSeq_overwrites
        [(expectP (stringParser ['b']) "bee".toList, some "k".toList)]
        ['x'] defaultEnv).2 rfl

/-! ## C10: the exported `any` bypasses normalization -/

/-- C10: the exported `any` is the bare function placed in the export object
directly, never passed through `toParser`/`addMaps` — so, being in
`ExportedParser.bare` rather than `ExportedParser.normalized` position, it
carries none of the mapping-chain methods (`map`, `nth`, `const`, `set`,
`skip`, `skipLast`, `take`, `takeLast`) that `addMaps` attaches to every
normalized parser.  Behaviourally: for every input and environment it neither
consults nor changes the environment, so an installed `terminals` wrapper is
never applied around it — concretely, with the whitespace-skip wrapper
installed, the normalized literal `"a"` matches `" a"` by skipping the blank,
while `any` consumes the blank itself. -/
theorem any_bypass :
    exportAny = ExportedParser.bare anyP
      ∧ (∀ input et, anyExportT input et = (anyP input, et))
      ∧ (toParserStr ['a'] [' ', 'a']
          ⟨defaultEnv, some (.skipWrap (regexParser whitespaceExec))⟩).1.success = true
      ∧ (anyExportT [' ', 'a']
          ⟨defaultEnv, some (.skipWrap (regexParser whitespaceExec))⟩).1.value
          = .str [' '] := by
  refine ⟨rfl, fun input et => rfl, ?_, rfl⟩
  rfl

end Warbler
